import Mathlib

/-!
Verification development for the ludtwig autofix convergence engine and the
twig template parser primitives.

The Rust sources are embedded shallowly:

* crates/ludtwig/src/process.rs: the autofix loop
  (iteratively_apply_suggestions, apply_suggestions_to_text) and the write
  decision of run_analysis.
* libs/twig/src/parser/html.rs: the nom-based HTML tag parsers.
* libs/twig/src/error.rs: the error taxonomy, the nom error conversion and
  the user-friendly error printer with its line/column scanner.

Source text and string slices are modelled as List Char, one list entry per
byte (the inputs of interest are ASCII, where Rust byte offsets coincide
with character offsets).  Fallible Rust paths are modelled with Except /
Option; usize arithmetic that can wrap is modelled modulo 2 ^ 64.
-/

/-! ## Part 1: the autofix engine (crates/ludtwig/src/process.rs) -/

/-- Byte range of a suggestion.  Models text_size::TextRange (the range type
behind rowan syntax nodes), a half-open interval of byte offsets. -/
structure TextRange where
  rStart : Nat
  rEnd : Nat
deriving DecidableEq

/-- Models text_size::TextRange::ordering, used by the autofix loop both as
sort comparator and as conflict test: two ranges compare as Equal exactly
when neither ends at or before the other starts, i.e. when they overlap. -/
def TextRange.ordering (a b : TextRange) : Ordering :=
  if a.rEnd ≤ b.rStart then Ordering.lt
  else if b.rEnd ≤ a.rStart then Ordering.gt
  else Ordering.eq

/-- Modelled from the spec: CheckSuggestion (crates/ludtwig/src/check/rule.rs
is not part of the visible sources; the spec describes a suggestion as a byte
range plus replacement text, attributed to the emitting rule).  The rule
attribution is carried separately as the first component of a pair. -/
structure CheckSuggestion where
  sugRange : TextRange
  replaceWith : List Char
deriving DecidableEq

abbrev RuleName := String

abbrev SugPair := RuleName × CheckSuggestion

/-- Modelled from the spec: a rule is a named, stateless unit that inspects a
parsed file and produces suggestions.  Because the parsed tree is a pure
function of the source text, a rule run is modelled as a pure function from
the current source text to its suggestion list. -/
structure RuleF where
  name : RuleName
  check : List Char → List CheckSuggestion

/-- Modelled from the spec: run_rules plus get_rule_context_suggestions
(crates/ludtwig/src/check/mod.rs is not part of the visible sources).  Every
active rule is invoked exactly once, in list order, and all (rule name,
suggestion) pairs are collected from the resulting aggregate. -/
def runRules (rules : List RuleF) (text : List Char) : List SugPair :=
  rules.foldr (fun r acc => ((r.check text).map fun s => (r.name, s)) ++ acc) []

/-- Comparator given to the stable sort in process.rs line 140: sort_by on
sug_a.syntax_range.ordering(sug_b.syntax_range).  An element is "at most"
another when the comparator does not answer Greater. -/
def sugLE (a b : SugPair) : Bool :=
  a.2.sugRange.ordering b.2.sugRange ≠ Ordering.gt

/-- Stable insertion used to model the stable Rust sort_by. -/
def insertSorted (x : SugPair) : List SugPair → List SugPair
  | [] => [x]
  | y :: l => if sugLE x y then x :: y :: l else y :: insertSorted x l

/-- Models suggestions.sort_by(...) in process.rs lines 140-141: a stable
sort by the range comparator.  (On comparator-lawful inputs every stable
sort produces the same list as the stable Rust merge sort.) -/
def sortSugs (l : List SugPair) : List SugPair :=
  l.foldr insertSorted []

/-- The per-file error surface of process.rs that the autofix loop itself can
produce (the FileRead/FileWrite I/O variants live at the filesystem boundary
and are out of scope of the embedded code paths). -/
inductive FileProcessingError where
  | MaxApplyIteration
  | OverlappingSuggestionInSingleRule (ruleName : RuleName)
deriving DecidableEq

/-- Models std HashSet::insert on the overlapping_rules set; only membership
is ever observed, so the set is carried as a duplicate-free list. -/
def hsInsert (acc : List RuleName) (r : RuleName) : List RuleName :=
  if r ∈ acc then acc else acc ++ [r]

/-- Models the conflict scan of process.rs lines 144-156: walk the sorted
list pairwise (each element zipped with its successor); when two adjacent
suggestion ranges compare as Equal, a same-rule pair aborts with
OverlappingSuggestionInSingleRule naming that rule, and a cross-rule pair
marks the second rule as overlapping. -/
def overlapScan : List SugPair → List RuleName → Except FileProcessingError (List RuleName)
  | [], acc => Except.ok acc
  | [_], acc => Except.ok acc
  | a :: b :: rest, acc =>
    if a.2.sugRange.ordering b.2.sugRange = Ordering.eq then
      if a.1 = b.1 then
        Except.error (FileProcessingError.OverlappingSuggestionInSingleRule a.1)
      else
        overlapScan (b :: rest) (hsInsert acc b.1)
    else
      overlapScan (b :: rest) acc

/-- Models the filter_map of process.rs lines 157-166: drop every suggestion
whose rule was marked overlapping, keep the bare suggestions of the rest. -/
def filterOverlapping (sorted : List SugPair) (overlapping : List RuleName) :
    List CheckSuggestion :=
  sorted.filterMap fun p => if p.1 ∈ overlapping then none else some p.2

/-- Models String::replace_range(start..end, repl) for in-bounds ranges
(start ≤ end ≤ length; out-of-bounds arguments would panic in Rust and are
excluded by the range-validity hypotheses of the theorems below). -/
def replaceRange (text : List Char) (a b : Nat) (repl : List Char) : List Char :=
  text.take a ++ repl ++ text.drop b

/-- Models apply_suggestions_to_text (process.rs lines 196-208): splice each
replacement of each suggestion into its range, iterating the list in reverse order
(highest start offset first). -/
def applySuggestionsToText (sugs : List CheckSuggestion) (text : List Char) : List Char :=
  sugs.reverse.foldl
    (fun acc s => replaceRange acc s.sugRange.rStart s.sugRange.rEnd s.replaceWith) text

/-- One body execution of the autofix loop once the suggestion list is known
to be nonempty (process.rs lines 139-190): sort, scan for conflicts, filter
the suggestions of overlapping rules, rewrite the text, re-parse and re-run all
rules on the new text.  Returns the new source text and the new aggregate. -/
def fixIterStep (rules : List RuleF) (text : List Char) (agg : List SugPair) :
    Except FileProcessingError (List Char × List SugPair) :=
  match overlapScan (sortSugs agg) [] with
  | Except.error e => Except.error e
  | Except.ok overlapping =>
    Except.ok (applySuggestionsToText (filterOverlapping (sortSugs agg) overlapping) text,
      runRules rules (applySuggestionsToText (filterOverlapping (sortSugs agg) overlapping) text))

/-- Models the for-loop of iteratively_apply_suggestions (process.rs lines
129-191) from loop index i onwards: for i in 0..10; an index of at least 9
returns the MaxApplyIteration error; an empty suggestion list breaks out with
the current (text, dirty, iterations) state; otherwise one step runs and the
dirty flag is set and the iteration count incremented. -/
def iterFrom (rules : List RuleF) (i : Nat) (text : List Char) (agg : List SugPair)
    (dirty : Bool) (count : Nat) : Except FileProcessingError (List Char × Bool × Nat) :=
  if h : i < 10 then
    if 9 ≤ i then Except.error FileProcessingError.MaxApplyIteration
    else if agg.isEmpty then Except.ok (text, dirty, count)
    else
      match fixIterStep rules text agg with
      | Except.error e => Except.error e
      | Except.ok (text2, agg2) => iterFrom rules (i + 1) text2 agg2 true (count + 1)
  else Except.ok (text, dirty, count)
termination_by 10 - i

/-- Models iteratively_apply_suggestions (process.rs lines 121-194): run the
bounded loop starting with dirty = false and zero completed iterations. -/
def iterativelyApplySuggestions (rules : List RuleF) (text : List Char)
    (agg : List SugPair) : Except FileProcessingError (List Char × Bool × Nat) :=
  iterFrom rules 0 text agg false 0

/-- Models the autofix branch of run_analysis (process.rs lines 85-105): run
the rules once, drive the loop, and on success write the final text back to
the file exactly when the dirty flag is set.  The returned Option is the
content handed to fs::write: some content on a dirty converged run, none when
nothing was rewritten; an error from the loop is returned before any write. -/
def runAnalysisFix (rules : List RuleF) (text : List Char) :
    Except FileProcessingError (Option (List Char)) :=
  match iterativelyApplySuggestions rules text (runRules rules text) with
  | Except.error e => Except.error e
  | Except.ok (t, dirty, _) => Except.ok (if dirty then some t else none)

/-! ## Loop invariants and theorems for claims C1 and C2 -/

/-- Invariant of the autofix loop: an Ok exit never decreases the iteration
count, and the resulting dirty flag is the incoming one or-ed with whether
any additional rewrite iteration was performed. -/
theorem iterFrom_ok_inv (rules : List RuleF) :
    ∀ (fuel i : Nat) (text : List Char) (agg : List SugPair) (d : Bool) (c : Nat)
      (t2 : List Char) (d2 : Bool) (c2 : Nat), 10 - i ≤ fuel →
      iterFrom rules i text agg d c = Except.ok (t2, d2, c2) →
      c ≤ c2 ∧ d2 = (d || decide (c < c2)) := by
  intro fuel
  induction fuel with
  | zero =>
    intro i text agg d c t2 d2 c2 hle h
    rw [iterFrom] at h
    rw [dif_neg (by omega : ¬ i < 10)] at h
    cases h
    exact ⟨Nat.le_refl _, by simp⟩
  | succ n ih =>
    intro i text agg d c t2 d2 c2 hle h
    rw [iterFrom] at h
    by_cases h10 : i < 10
    · rw [dif_pos h10] at h
      by_cases h9 : 9 ≤ i
      · rw [if_pos h9] at h
        exact absurd h (by simp)
      · rw [if_neg h9] at h
        by_cases hemp : agg.isEmpty = true
        · rw [if_pos hemp] at h
          cases h
          exact ⟨Nat.le_refl _, by simp⟩
        · rw [if_neg hemp] at h
          rcases hstep : fixIterStep rules text agg with e | ⟨t3, a3⟩ <;> rw [hstep] at h
          · exact absurd h (by simp)
          · have := ih (i + 1) t3 a3 true (c + 1) t2 d2 c2 (by omega) h
            have hc : c < c2 := by omega
            refine ⟨by omega, ?_⟩
            rw [this.2]
            simp [hc]
    · rw [dif_neg h10] at h
      cases h
      exact ⟨Nat.le_refl _, by simp⟩

/-- Under rules that always produce at least one suggestion and never
self-conflict, each loop entry at index i below nine performs one rewrite and
re-runs the rules, so after k more steps the loop sits at index i + k with k
more completed iterations and a set dirty flag. -/
theorem iterFrom_steps (rules : List RuleF)
    (hne : ∀ t, runRules rules t ≠ [])
    (hnc : ∀ t, ∃ ov, overlapScan (sortSugs (runRules rules t)) [] = Except.ok ov) :
    ∀ (k i : Nat) (t : List Char) (d : Bool) (c : Nat), i + k = 9 →
      ∃ t9, iterFrom rules i t (runRules rules t) d c
          = iterFrom rules 9 t9 (runRules rules t9) (d || decide (0 < k)) (c + k) := by
  intro k
  induction k with
  | zero =>
    intro i t d c hik
    have hi : i = 9 := by omega
    subst hi
    exact ⟨t, by simp⟩
  | succ n ih =>
    intro i t d c hik
    have h10 : i < 10 := by omega
    have h9 : ¬ 9 ≤ i := by omega
    obtain ⟨ov, hov⟩ := hnc t
    have hemp : (runRules rules t).isEmpty = false := by
      cases hrr : runRules rules t with
      | nil => exact absurd hrr (hne t)
      | cons a l => rfl
    have hfix : fixIterStep rules t (runRules rules t)
        = Except.ok (applySuggestionsToText
            (filterOverlapping (sortSugs (runRules rules t)) ov) t,
          runRules rules (applySuggestionsToText
            (filterOverlapping (sortSugs (runRules rules t)) ov) t)) := by
      unfold fixIterStep
      rw [hov]
    have hone : iterFrom rules i t (runRules rules t) d c
        = iterFrom rules (i + 1)
            (applySuggestionsToText
              (filterOverlapping (sortSugs (runRules rules t)) ov) t)
            (runRules rules (applySuggestionsToText
              (filterOverlapping (sortSugs (runRules rules t)) ov) t))
            true (c + 1) := by
      rw [iterFrom, dif_pos h10, if_neg h9, hemp]
      rw [hfix]
      rfl
    obtain ⟨t9, hrest⟩ :=
      ih (i + 1)
        (applySuggestionsToText (filterOverlapping (sortSugs (runRules rules t)) ov) t)
        true (c + 1) (by omega)
    refine ⟨t9, ?_⟩
    rw [hone, hrest]
    have hb1 : (true || decide (0 < n)) = true := by simp
    have hb2 : (d || decide (0 < n + 1)) = true := by simp
    have hcc : c + 1 + n = c + (n + 1) := by omega
    rw [hb1, hb2, hcc]

/-- Claim C1: when the active rules propose at least one suggestion on every
iteration (and never self-conflict, which would abort earlier with a
different error), iteratively_apply_suggestions performs exactly 9 rewrite
iterations — the loop reaches index 9 with iteration count 9 and a set dirty
flag — and then returns the MaxApplyIteration non-convergence error, and in
that error case run_analysis returns the error before ever reaching
fs::write, so the rewritten text is never written to the file. -/
theorem autofix_maxIteration_C1 (rules : List RuleF) (text0 : List Char)
    (hne : ∀ t, runRules rules t ≠ [])
    (hnc : ∀ t, ∃ ov, overlapScan (sortSugs (runRules rules t)) [] = Except.ok ov) :
    (∃ t9, iterFrom rules 0 text0 (runRules rules text0) false 0
        = iterFrom rules 9 t9 (runRules rules t9) true 9) ∧
    iterativelyApplySuggestions rules text0 (runRules rules text0)
        = Except.error FileProcessingError.MaxApplyIteration ∧
    runAnalysisFix rules text0 = Except.error FileProcessingError.MaxApplyIteration := by
  obtain ⟨t9, hsteps⟩ := iterFrom_steps rules hne hnc 9 0 text0 false 0 (by omega)
  have hb : (false || decide (0 < 9)) = true := by simp
  rw [hb] at hsteps
  have herr : iterFrom rules 9 t9 (runRules rules t9) true 9
      = Except.error FileProcessingError.MaxApplyIteration := by
    rw [iterFrom, dif_pos (by omega : (9 : Nat) < 10), if_pos (by omega : (9 : Nat) ≤ 9)]
  have hmain : iterativelyApplySuggestions rules text0 (runRules rules text0)
      = Except.error FileProcessingError.MaxApplyIteration := by
    unfold iterativelyApplySuggestions
    rw [hsteps, herr]
  refine ⟨⟨t9, by rw [hsteps]⟩, hmain, ?_⟩
  unfold runAnalysisFix
  rw [hmain]

/-- A rule that proposes the same no-op suggestion on every tree state,
regardless of the text: the canonical witness for non-convergence. -/
def alwaysRule : RuleF :=
  ⟨"always", fun _ => [⟨⟨0, 0⟩, []⟩]⟩

/-- Witness for claim C1 at a concrete rule set and text. -/
theorem autofix_maxIteration_C1_witness :
    iterativelyApplySuggestions [alwaysRule] "<div>".toList
        (runRules [alwaysRule] "<div>".toList)
      = Except.error FileProcessingError.MaxApplyIteration ∧
    runAnalysisFix [alwaysRule] "<div>".toList
      = Except.error FileProcessingError.MaxApplyIteration :=
  ⟨(autofix_maxIteration_C1 [alwaysRule] "<div>".toList
      (fun _ h => List.noConfusion h) (fun _ => ⟨[], rfl⟩)).2.1,
   (autofix_maxIteration_C1 [alwaysRule] "<div>".toList
      (fun _ h => List.noConfusion h) (fun _ => ⟨[], rfl⟩)).2.2⟩

/-- Claim C2: an empty suggestion aggregate at the start of an iteration
below the bound stops the loop with Ok and the current state unchanged; on
any Ok exit of a full run the dirty flag is set exactly when at least one
rewrite iteration was counted; and with zero active rules the run returns
zero iterations, a clear dirty flag and the byte-for-byte unchanged text, so
run_analysis never writes the file. -/
theorem autofix_convergence_C2 (rules : List RuleF) (text : List Char) :
    (∀ (i : Nat) (t : List Char) (d : Bool) (c : Nat), i < 9 →
        iterFrom rules i t [] d c = Except.ok (t, d, c)) ∧
    (∀ (agg : List SugPair) (t2 : List Char) (d2 : Bool) (c2 : Nat),
        iterativelyApplySuggestions rules text agg = Except.ok (t2, d2, c2) →
        (d2 = true ↔ 0 < c2)) ∧
    runRules [] text = [] ∧
    iterativelyApplySuggestions [] text (runRules [] text) = Except.ok (text, false, 0) ∧
    runAnalysisFix [] text = Except.ok none := by
  have hempty : ∀ (i : Nat) (t : List Char) (d : Bool) (c : Nat), i < 9 →
      iterFrom rules i t [] d c = Except.ok (t, d, c) := by
    intro i t d c hi
    rw [iterFrom, dif_pos (by omega : i < 10), if_neg (by omega : ¬ 9 ≤ i)]
    rfl
  have hzero : ∀ (t : List Char), iterFrom ([] : List RuleF) 0 t [] false 0
      = Except.ok (t, false, 0) := by
    intro t
    rw [iterFrom, dif_pos (by omega : (0 : Nat) < 10), if_neg (by omega : ¬ (9 : Nat) ≤ 0)]
    rfl
  refine ⟨hempty, ?_, rfl, hzero text, ?_⟩
  · intro agg t2 d2 c2 hok
    have hinv := iterFrom_ok_inv rules 10 0 text agg false 0 t2 d2 c2 (by omega) hok
    rw [hinv.2]
    simp
  · unfold runAnalysisFix iterativelyApplySuggestions
    have hrr : runRules ([] : List RuleF) text = [] := rfl
    rw [hrr, hzero text]
    rfl

/-- Witness for claim C2 at concrete inputs. -/
theorem autofix_convergence_C2_witness :
    iterFrom [] 3 "ab".toList [] false 0 = Except.ok ("ab".toList, false, 0) ∧
    runAnalysisFix [] "ab".toList = Except.ok none :=
  ⟨(autofix_convergence_C2 [] "ab".toList).1 3 "ab".toList false 0 (by omega),
   (autofix_convergence_C2 [] "ab".toList).2.2.2.2⟩

/-! ## Conflict handling: claims C3 and C4 -/

theorem insertSorted_length (x : SugPair) (l : List SugPair) :
    (insertSorted x l).length = l.length + 1 := by
  induction l with
  | nil => rfl
  | cons y l ih =>
    unfold insertSorted
    by_cases h : sugLE x y = true
    · rw [if_pos h]
      rfl
    · rw [if_neg h]
      simp [ih]

theorem sortSugs_length (l : List SugPair) : (sortSugs l).length = l.length := by
  induction l with
  | nil => rfl
  | cons x l ih =>
    unfold sortSugs at ih ⊢
    rw [List.foldr_cons, insertSorted_length, ih]
    rfl

/-- If the sorted list contains an adjacent pair of equally-comparing
suggestions of one and the same rule, the pairwise conflict scan aborts with
some error. -/
theorem overlapScan_err_exists (r : RuleName) (a b : CheckSuggestion)
    (post : List SugPair) (heq : a.sugRange.ordering b.sugRange = Ordering.eq) :
    ∀ (pre : List SugPair) (acc : List RuleName),
      ∃ e, overlapScan (pre ++ (r, a) :: (r, b) :: post) acc = Except.error e := by
  intro pre
  induction pre with
  | nil =>
    intro acc
    exact ⟨FileProcessingError.OverlappingSuggestionInSingleRule r,
      by simp [overlapScan, heq]⟩
  | cons p pre2 ih =>
    intro acc
    rcases hq : pre2 ++ (r, a) :: (r, b) :: post with _ | ⟨q, rest2⟩
    · exact absurd hq (by simp)
    · rw [List.cons_append, hq]
      by_cases h1 : p.2.sugRange.ordering q.2.sugRange = Ordering.eq
      · by_cases h2 : p.1 = q.1
        · exact ⟨FileProcessingError.OverlappingSuggestionInSingleRule p.1,
            by simp [overlapScan, h1, h2]⟩
        · obtain ⟨e, he⟩ := ih (hsInsert acc q.1)
          rw [hq] at he
          exact ⟨e, by simp only [overlapScan, h1, if_pos, if_neg h2, if_true]; exact he⟩
      · obtain ⟨e, he⟩ := ih acc
        rw [hq] at he
        exact ⟨e, by simp only [overlapScan, if_neg h1]; exact he⟩

/-- The conflict scan only ever aborts because of two adjacent elements of
the scanned list whose ranges compare as Equal and whose rules coincide, and
the error names exactly that rule. -/
theorem overlapScan_error_shape :
    ∀ (l : List SugPair) (acc : List RuleName) (e : FileProcessingError),
      overlapScan l acc = Except.error e →
      ∃ pre2 r2 a2 b2 post2, l = pre2 ++ (r2, a2) :: (r2, b2) :: post2 ∧
        a2.sugRange.ordering b2.sugRange = Ordering.eq ∧
        e = FileProcessingError.OverlappingSuggestionInSingleRule r2 := by
  intro l
  induction l with
  | nil => intro acc e h; exact absurd h (by simp [overlapScan])
  | cons x rest ih =>
    intro acc e h
    cases rest with
    | nil => exact absurd h (by simp [overlapScan])
    | cons y rest2 =>
      rcases x with ⟨xr, xs⟩
      rcases y with ⟨yr, ys⟩
      by_cases h1 : xs.sugRange.ordering ys.sugRange = Ordering.eq
      · by_cases h2 : xr = yr
        · subst h2
          simp only [overlapScan, if_pos h1, if_pos rfl] at h
          cases h
          exact ⟨[], xr, xs, ys, rest2, rfl, h1, rfl⟩
        · simp only [overlapScan, if_pos h1, if_neg h2] at h
          obtain ⟨pre2, r2, a2, b2, post2, hdec, heq2, herr⟩ := ih _ _ h
          exact ⟨(xr, xs) :: pre2, r2, a2, b2, post2, by simp [hdec], heq2, herr⟩
      · simp only [overlapScan, if_neg h1] at h
        obtain ⟨pre2, r2, a2, b2, post2, hdec, heq2, herr⟩ := ih _ _ h
        exact ⟨(xr, xs) :: pre2, r2, a2, b2, post2, by simp [hdec], heq2, herr⟩

/-- Claim C3: whenever the sorted suggestion list has two adjacent
suggestions of the same rule whose ranges compare as equal, the autofix run
for the file aborts with the OverlappingSuggestionInSingleRule error naming a
rule with such an adjacent pair; and conversely the scan only compares
adjacent pairs of the sorted list, i.e. it can only abort because of an
adjacent equal-range same-rule pair. -/
theorem selfOverlap_abort_C3 (rules : List RuleF) (text : List Char)
    (agg : List SugPair) (pre post : List SugPair) (r : RuleName)
    (a b : CheckSuggestion)
    (hsort : sortSugs agg = pre ++ (r, a) :: (r, b) :: post)
    (heq : a.sugRange.ordering b.sugRange = Ordering.eq) :
    (∃ r2 a2 b2 pre2 post2,
        iterativelyApplySuggestions rules text agg
          = Except.error (FileProcessingError.OverlappingSuggestionInSingleRule r2) ∧
        sortSugs agg = pre2 ++ (r2, a2) :: (r2, b2) :: post2 ∧
        a2.sugRange.ordering b2.sugRange = Ordering.eq) ∧
    (∀ (l : List SugPair) (acc : List RuleName) (e : FileProcessingError),
        overlapScan l acc = Except.error e →
        ∃ pre2 r2 a2 b2 post2, l = pre2 ++ (r2, a2) :: (r2, b2) :: post2 ∧
          a2.sugRange.ordering b2.sugRange = Ordering.eq ∧
          e = FileProcessingError.OverlappingSuggestionInSingleRule r2) := by
  refine ⟨?_, overlapScan_error_shape⟩
  obtain ⟨e, he⟩ := overlapScan_err_exists r a b post heq pre []
  rw [← hsort] at he
  obtain ⟨pre2, r2, a2, b2, post2, hdec, heq2, herr⟩ := overlapScan_error_shape _ _ _ he
  have hemp : agg.isEmpty = false := by
    cases hagg : agg with
    | nil =>
      rw [hagg] at hsort
      have : (sortSugs ([] : List SugPair)).length = (pre ++ (r, a) :: (r, b) :: post).length := by
        rw [hsort]
      simp [sortSugs] at this
      exact absurd this (by omega)
    | cons z l => rfl
  have hstep : fixIterStep rules text agg = Except.error e := by
    unfold fixIterStep
    rw [he]
  refine ⟨r2, a2, b2, pre2, post2, ?_, hdec, heq2⟩
  unfold iterativelyApplySuggestions
  rw [iterFrom, dif_pos (by omega : (0 : Nat) < 10), if_neg (by omega : ¬ (9 : Nat) ≤ 0),
    hemp]
  rw [hstep]
  rw [← herr]
  rfl

/-- Concrete aggregate for the C3 witness: one rule proposing two overlapping
suggestions. -/
def aggC3 : List SugPair :=
  [("rule_x", ⟨⟨0, 2⟩, []⟩), ("rule_x", ⟨⟨1, 3⟩, []⟩)]

/-- Witness for claim C3 at a concrete aggregate. -/
theorem selfOverlap_abort_C3_witness :
    ∃ r2 a2 b2 pre2 post2,
      iterativelyApplySuggestions [] "abc".toList aggC3
        = Except.error (FileProcessingError.OverlappingSuggestionInSingleRule r2) ∧
      sortSugs aggC3 = pre2 ++ (r2, a2) :: (r2, b2) :: post2 ∧
      a2.sugRange.ordering b2.sugRange = Ordering.eq :=
  (selfOverlap_abort_C3 [] "abc".toList aggC3 [] [] "rule_x" ⟨⟨0, 2⟩, []⟩ ⟨⟨1, 3⟩, []⟩
    (by decide) (by decide)).1

/-- The overlap filter keeps exactly the suggestions whose rule was not
marked overlapping, across the whole sorted list. -/
theorem filterOverlapping_eq (l : List SugPair) (ov : List RuleName) :
    filterOverlapping l ov = (l.filter fun p => !decide (p.1 ∈ ov)).map Prod.snd := by
  induction l with
  | nil => rfl
  | cons p l ih =>
    by_cases hp : p.1 ∈ ov
    · simp [filterOverlapping, List.filterMap_cons, hp] at ih ⊢
      exact ih
    · simp [filterOverlapping, List.filterMap_cons, hp] at ih ⊢
      exact ih

/-- Claim C4: in an iteration whose aggregate sorts to exactly two
suggestions of two different rules with equally-comparing ranges, the scan
marks the second-encountered rule as overlapping, the filter keeps only the
suggestion of the first rule, and the step rewrites the text with exactly that
suggestion; in general the filter drops every suggestion whose rule was
marked overlapping, not only the colliding one. -/
theorem crossRule_overlap_C4 (rules : List RuleF) (text : List Char)
    (agg : List SugPair) (r1 r2 : RuleName) (s1 s2 : CheckSuggestion)
    (hsort : sortSugs agg = [(r1, s1), (r2, s2)])
    (heq : s1.sugRange.ordering s2.sugRange = Ordering.eq)
    (hne : r1 ≠ r2) :
    overlapScan (sortSugs agg) [] = Except.ok [r2] ∧
    filterOverlapping (sortSugs agg) [r2] = [s1] ∧
    fixIterStep rules text agg
      = Except.ok (applySuggestionsToText [s1] text,
          runRules rules (applySuggestionsToText [s1] text)) ∧
    (∀ (l : List SugPair) (ov : List RuleName),
        filterOverlapping l ov = (l.filter fun p => !decide (p.1 ∈ ov)).map Prod.snd) := by
  have hscan : overlapScan (sortSugs agg) [] = Except.ok [r2] := by
    rw [hsort]
    simp [overlapScan, heq, hne, hsInsert]
  have hfilt : filterOverlapping (sortSugs agg) [r2] = [s1] := by
    rw [hsort]
    simp [filterOverlapping, List.filterMap_cons, hne]
  have hstep : fixIterStep rules text agg
      = Except.ok (applySuggestionsToText [s1] text,
          runRules rules (applySuggestionsToText [s1] text)) := by
    unfold fixIterStep
    rw [hscan]
    simp only [hfilt]
  exact ⟨hscan, hfilt, hstep, filterOverlapping_eq⟩

/-- Concrete aggregate for the C4 witness: two rules proposing suggestions
at one identical range. -/
def aggC4 : List SugPair :=
  [("rule_a", ⟨⟨0, 2⟩, ['Z']⟩), ("rule_b", ⟨⟨0, 2⟩, ['Q']⟩)]

/-- Witness for claim C4 at a concrete aggregate: the first rule in sort
order wins and its suggestion is the one spliced into the text. -/
theorem crossRule_overlap_C4_witness :
    overlapScan (sortSugs aggC4) [] = Except.ok ["rule_b"] ∧
    filterOverlapping (sortSugs aggC4) ["rule_b"] = [⟨⟨0, 2⟩, ['Z']⟩] ∧
    fixIterStep [] "abc".toList aggC4
      = Except.ok (applySuggestionsToText [⟨⟨0, 2⟩, ['Z']⟩] "abc".toList,
          runRules [] (applySuggestionsToText [⟨⟨0, 2⟩, ['Z']⟩] "abc".toList)) :=
  ⟨(crossRule_overlap_C4 [] "abc".toList aggC4 "rule_a" "rule_b" ⟨⟨0, 2⟩, ['Z']⟩
      ⟨⟨0, 2⟩, ['Q']⟩ (by decide) (by decide) (by decide)).1,
   (crossRule_overlap_C4 [] "abc".toList aggC4 "rule_a" "rule_b" ⟨⟨0, 2⟩, ['Z']⟩
      ⟨⟨0, 2⟩, ['Q']⟩ (by decide) (by decide) (by decide)).2.1,
   (crossRule_overlap_C4 [] "abc".toList aggC4 "rule_a" "rule_b" ⟨⟨0, 2⟩, ['Z']⟩
      ⟨⟨0, 2⟩, ['Q']⟩ (by decide) (by decide) (by decide)).2.2.1⟩

/-! ## Text splicing: claim C5 -/

/-- Rebase a suggestion by k bytes to the left; used to express the
remaining-text decomposition of the splice semantics. -/
def shiftSug (k : Nat) (s : CheckSuggestion) : CheckSuggestion :=
  ⟨⟨s.sugRange.rStart - k, s.sugRange.rEnd - k⟩, s.replaceWith⟩

/-- Reference function following the wording of the spec for claim C5: process the
sorted suggestions left to right, copying the text before each range,
emitting the replacement in place of the range, and continuing on the text
after the range, so every byte outside all ranges is preserved and each
replacement lands in exactly its own range. -/
def spliceSpec : List CheckSuggestion → List Char → List Char
  | [], t => t
  | s :: rest, t =>
    t.take s.sugRange.rStart ++ s.replaceWith ++
      spliceSpec (rest.map (shiftSug s.sugRange.rEnd)) (t.drop s.sugRange.rEnd)
termination_by l _ => l.length
decreasing_by simp

/-- Sorted-and-disjoint check for a suggestion list: starting from lower
bound lb, each range is well formed and ends at or before the next starts. -/
def chainValid : Nat → List CheckSuggestion → Bool
  | _, [] => true
  | lb, s :: rest =>
    decide (lb ≤ s.sugRange.rStart) && decide (s.sugRange.rStart ≤ s.sugRange.rEnd) &&
      chainValid s.sugRange.rEnd rest

theorem applySugs_cons (s : CheckSuggestion) (rest : List CheckSuggestion) (t : List Char) :
    applySuggestionsToText (s :: rest) t
      = replaceRange (applySuggestionsToText rest t)
          s.sugRange.rStart s.sugRange.rEnd s.replaceWith := by
  unfold applySuggestionsToText
  rw [List.reverse_cons, List.foldl_append]
  rfl

theorem replaceRange_split (t X repl : List Char) (a e : Nat) (ha : a ≤ e)
    (he : e ≤ t.length) :
    replaceRange (t.take e ++ X) a e repl = t.take a ++ repl ++ X := by
  have hlen : (t.take e).length = e := by
    simp [List.length_take, Nat.min_eq_left he]
  unfold replaceRange
  rw [List.take_append_eq_append_take, hlen, Nat.sub_eq_zero_of_le ha, List.take_zero,
    List.append_nil, List.take_take, Nat.min_eq_left ha, List.drop_left' hlen]

theorem shiftSug_shiftSug (k e : Nat) (x : CheckSuggestion) (hke : k ≤ e) :
    shiftSug (e - k) (shiftSug k x) = shiftSug e x := by
  simp only [shiftSug, CheckSuggestion.mk.injEq, TextRange.mk.injEq, and_true]
  exact ⟨by omega, by omega⟩

theorem chainValid_shift (k : Nat) :
    ∀ (lb : Nat) (l : List CheckSuggestion), k ≤ lb → chainValid lb l = true →
      chainValid (lb - k) (l.map (shiftSug k)) = true := by
  intro lb l
  induction l generalizing lb with
  | nil => intro _ _; rfl
  | cons s rest ih =>
    intro hk h
    simp only [chainValid, Bool.and_eq_true, decide_eq_true_eq] at h
    obtain ⟨⟨h1, h2⟩, h3⟩ := h
    simp only [List.map_cons, chainValid, Bool.and_eq_true, decide_eq_true_eq, shiftSug]
    exact ⟨⟨by omega, by omega⟩, ih s.sugRange.rEnd (by omega) h3⟩

/-- Decomposition of the reverse-order splice: when every suggestion lies at
or beyond offset k, the first k bytes of the text pass through untouched and
the splice acts on the rebased suggestions against the remaining text. -/
theorem applySugs_split :
    ∀ (n : Nat) (l : List CheckSuggestion), l.length = n →
      ∀ (k : Nat) (t : List Char), chainValid k l = true →
        (∀ s ∈ l, s.sugRange.rEnd ≤ t.length) →
        applySuggestionsToText l t
          = t.take k ++ applySuggestionsToText (l.map (shiftSug k)) (t.drop k) := by
  intro n
  induction n with
  | zero =>
    intro l hl k t _ _
    have hnil : l = [] := List.eq_nil_of_length_eq_zero hl
    subst hnil
    simp only [List.map_nil]
    show t = t.take k ++ t.drop k
    exact (List.take_append_drop k t).symm
  | succ n ih =>
    intro l hl k t hchain hwithin
    cases l with
    | nil => simp at hl
    | cons s rest =>
      have hrl : rest.length = n := by simpa using hl
      simp only [chainValid, Bool.and_eq_true, decide_eq_true_eq] at hchain
      obtain ⟨⟨hks, hse⟩, hrest⟩ := hchain
      have hwr : ∀ x ∈ rest, x.sugRange.rEnd ≤ t.length := fun x hx =>
        hwithin x (List.mem_cons_of_mem _ hx)
      have hEnd : s.sugRange.rEnd ≤ t.length := hwithin s (List.mem_cons_self _ _)
      have hke : k ≤ s.sugRange.rEnd := by omega
      -- transform the left-hand side
      rw [applySugs_cons, ih rest hrl s.sugRange.rEnd t hrest hwr,
        replaceRange_split t _ _ _ _ hse hEnd]
      -- transform the right-hand side
      rw [List.map_cons, applySugs_cons]
      simp only [shiftSug]
      rw [ih (rest.map (shiftSug k)) (by simpa using hrl) (s.sugRange.rEnd - k) (t.drop k)
          (chainValid_shift k s.sugRange.rEnd rest hke hrest)
          (by
            intro x hx
            obtain ⟨y, hy, hyx⟩ := List.mem_map.mp hx
            subst hyx
            have := hwr y hy
            simp only [shiftSug, List.length_drop]
            omega)]
      have hmaps : (rest.map (shiftSug k)).map (shiftSug (s.sugRange.rEnd - k))
          = rest.map (shiftSug s.sugRange.rEnd) := by
        rw [List.map_map]
        exact List.map_congr_left (fun x _ => shiftSug_shiftSug k s.sugRange.rEnd x hke)
      rw [hmaps]
      rw [List.drop_drop, Nat.add_sub_cancel' hke]
      rw [replaceRange_split (t.drop k) _ _ _ _ (by omega)
          (by simp only [List.length_drop]; omega)]
      rw [← List.append_assoc, ← List.append_assoc]
      have htk : t.take k ++ (t.drop k).take (s.sugRange.rStart - k) = t.take s.sugRange.rStart := by
        rw [← List.take_add, Nat.add_sub_cancel' hks]
      rw [htk]

/-- Auxiliary induction for claim C5: on a sorted, pairwise-disjoint,
in-bounds suggestion list the reverse-order splice of the implementation
computes the left-to-right reference splice. -/
theorem applySugs_eq_spliceSpec :
    ∀ (n : Nat) (l : List CheckSuggestion), l.length = n →
      ∀ (t : List Char), chainValid 0 l = true →
        (∀ s ∈ l, s.sugRange.rEnd ≤ t.length) →
        applySuggestionsToText l t = spliceSpec l t := by
  intro n
  induction n with
  | zero =>
    intro l hl t _ _
    have hnil : l = [] := List.eq_nil_of_length_eq_zero hl
    subst hnil
    rw [spliceSpec]
    rfl
  | succ n ih =>
    intro l hl t hchain hwithin
    cases l with
    | nil => simp at hl
    | cons s rest =>
      have hrl : rest.length = n := by simpa using hl
      simp only [chainValid, Bool.and_eq_true, decide_eq_true_eq] at hchain
      obtain ⟨⟨_, hse⟩, hrest⟩ := hchain
      have hwr : ∀ x ∈ rest, x.sugRange.rEnd ≤ t.length := fun x hx =>
        hwithin x (List.mem_cons_of_mem _ hx)
      have hEnd : s.sugRange.rEnd ≤ t.length := hwithin s (List.mem_cons_self _ _)
      rw [applySugs_cons,
        applySugs_split rest.length rest rfl s.sugRange.rEnd t hrest hwr,
        replaceRange_split t _ _ _ _ hse hEnd]
      rw [spliceSpec]
      have hchain0 : chainValid 0 (rest.map (shiftSug s.sugRange.rEnd)) = true := by
        have := chainValid_shift s.sugRange.rEnd s.sugRange.rEnd rest (Nat.le_refl _) hrest
        rwa [Nat.sub_self] at this
      rw [ih (rest.map (shiftSug s.sugRange.rEnd)) (by simpa using hrl)
          (t.drop s.sugRange.rEnd) hchain0
          (by
            intro x hx
            obtain ⟨y, hy, hyx⟩ := List.mem_map.mp hx
            subst hyx
            have := hwr y hy
            simp only [shiftSug, List.length_drop]
            omega)]

/-- Claim C5: for a suggestion list sorted by range start with pairwise
disjoint half-open ranges (each range ends at or before the next starts)
that all lie within the source text, apply_suggestions_to_text — which
iterates the list in reverse order, highest start offset first — splices
every replacement into exactly its own range in a single pass: the result is
the left-to-right reference splice, which preserves every byte outside the
ranges and is independent of which rule produced each suggestion. -/
theorem applySuggestions_splice_C5 (sugs : List CheckSuggestion) (t : List Char)
    (h1 : chainValid 0 sugs = true)
    (h2 : ∀ s ∈ sugs, s.sugRange.rEnd ≤ t.length) :
    applySuggestionsToText sugs t = spliceSpec sugs t :=
  applySugs_eq_spliceSpec sugs.length sugs rfl t h1 h2

/-- Witness for claim C5 at two concrete disjoint suggestions. -/
theorem applySuggestions_splice_C5_witness :
    chainValid 0 [⟨⟨1, 2⟩, "XY".toList⟩, ⟨⟨3, 4⟩, []⟩] = true ∧
    (∀ s ∈ [⟨⟨1, 2⟩, "XY".toList⟩, (⟨⟨3, 4⟩, []⟩ : CheckSuggestion)],
        s.sugRange.rEnd ≤ "abcde".toList.length) ∧
    applySuggestionsToText [⟨⟨1, 2⟩, "XY".toList⟩, ⟨⟨3, 4⟩, []⟩] "abcde".toList
      = spliceSpec [⟨⟨1, 2⟩, "XY".toList⟩, ⟨⟨3, 4⟩, []⟩] "abcde".toList :=
  ⟨by decide, by decide, applySuggestions_splice_C5 _ _ (by decide) (by decide)⟩

/-! ## Part 2: the twig HTML parser (libs/twig/src/parser/html.rs)

The nom combinators used by html.rs are embedded over List Char inputs.  A
parser consumes from the front of the remaining input; nom::Err::Error is the
recoverable case (alternatives may backtrack) and nom::Err::Failure is the
non-backtrackable case produced by cut.  nom::Err::Incomplete never occurs
for the complete-input combinators used here. -/

/-- The nom ErrorKind values reachable through the embedded combinators,
plus an artificial fuelOut kind used only when the explicit recursion fuel of
the embedding runs out (never reached with adequate fuel). -/
inductive ErrKind where
  | tagK
  | takeTill1K
  | noneOfK
  | many0K
  | fuelOut
deriving DecidableEq

/-- Models ParsingErrorInformation (error.rs lines 5-10): the remaining
input at the error, the nom ErrorKind, and an optional context message. -/
structure PEInfo where
  input : List Char
  kind : ErrKind
  context : Option String
deriving DecidableEq

/-- Result of a nom parser: remaining input plus value, a recoverable error,
or a non-backtrackable failure. -/
inductive NomOut (α : Type) where
  | ok (remaining : List Char) (val : α)
  | err (e : PEInfo)
  | fail (e : PEInfo)
deriving DecidableEq

/-- A parser over the remaining input. -/
def ParserM (α : Type) : Type := List Char → NomOut α

/-- Sequencing that propagates both recoverable errors and failures, the
behaviour of the question-mark operator on nom results. -/
def nbind {α β : Type} (r : NomOut α) (f : List Char → α → NomOut β) : NomOut β :=
  match r with
  | NomOut.ok rem v => f rem v
  | NomOut.err e => NomOut.err e
  | NomOut.fail e => NomOut.fail e

/-- Models nom bytes::complete::tag: match a literal prefix. -/
def tagP (t : List Char) : ParserM (List Char) := fun i =>
  if t.isPrefixOf i then NomOut.ok (i.drop t.length) t
  else NomOut.err ⟨i, ErrKind.tagK, none⟩

/-- Models nom bytes::complete::take_till1: longest (nonempty) prefix on
which the predicate is false. -/
def takeTill1 (p : Char → Bool) : ParserM (List Char) := fun i =>
  let taken := i.takeWhile fun c => !p c
  if taken.isEmpty then NomOut.err ⟨i, ErrKind.takeTill1K, none⟩
  else NomOut.ok (i.drop taken.length) taken

/-- The characters matched by nom multispace: space, tab, carriage return
and line feed. -/
def isMultispace (c : Char) : Bool :=
  c = ' ' || c = '\t' || c = '\r' || c = '\n'

/-- Models nom character::complete::multispace0 (never fails). -/
def multispace0 : ParserM (List Char) := fun i =>
  NomOut.ok (i.dropWhile isMultispace) (i.takeWhile isMultispace)

/-- Models nom combinator::opt: recoverable errors become none, failures
propagate. -/
def optP {α : Type} (p : ParserM α) : ParserM (Option α) := fun i =>
  match p i with
  | NomOut.ok rem v => NomOut.ok rem (some v)
  | NomOut.err _ => NomOut.ok i none
  | NomOut.fail e => NomOut.fail e

/-- Models nom combinator::value: run the parser, return the constant. -/
def valueP {α β : Type} (v : β) (p : ParserM α) : ParserM β := fun i =>
  match p i with
  | NomOut.ok rem _ => NomOut.ok rem v
  | NomOut.err e => NomOut.err e
  | NomOut.fail e => NomOut.fail e

/-- Models nom branch::alt for two alternatives: the second runs only when
the first fails recoverably; failures stop the alternation. -/
def alt2 {α : Type} (p q : ParserM α) : ParserM α := fun i =>
  match p i with
  | NomOut.ok rem v => NomOut.ok rem v
  | NomOut.err _ => q i
  | NomOut.fail e => NomOut.fail e

/-- Models nom combinator::cut: turn a recoverable error into a failure. -/
def cutP {α : Type} (p : ParserM α) : ParserM α := fun i =>
  match p i with
  | NomOut.ok rem v => NomOut.ok rem v
  | NomOut.err e => NomOut.fail e
  | NomOut.fail e => NomOut.fail e

/-- Models nom error::context together with ParseError::add_context
(error.rs lines 64-69): overwrite the context field of the error value, on
recoverable errors and on failures alike. -/
def contextP {α : Type} (c : String) (p : ParserM α) : ParserM α := fun i =>
  match p i with
  | NomOut.ok rem v => NomOut.ok rem v
  | NomOut.err e => NomOut.err ⟨e.input, e.kind, some c⟩
  | NomOut.fail e => NomOut.fail ⟨e.input, e.kind, some c⟩

/-- Modelled from the spec: dynamic_context (libs/twig/src/parser/general.rs
is not part of the visible sources; the spec says a failure is recorded with
a descriptive, dynamically-built message).  Identical to contextP but with an
owned String, dispatching to add_dynamic_context (error.rs lines 76-82),
which overwrites the context field. -/
def dynamicContext {α : Type} (c : String) (p : ParserM α) : ParserM α := fun i =>
  match p i with
  | NomOut.ok rem v => NomOut.ok rem v
  | NomOut.err e => NomOut.err ⟨e.input, e.kind, some c⟩
  | NomOut.fail e => NomOut.fail ⟨e.input, e.kind, some c⟩

/-- Models nom character::complete::none_of: one character not in the set. -/
def noneOf (chars : List Char) : ParserM Char := fun i =>
  match i with
  | [] => NomOut.err ⟨[], ErrKind.noneOfK, none⟩
  | c :: rest =>
    if c ∈ chars then NomOut.err ⟨c :: rest, ErrKind.noneOfK, none⟩
    else NomOut.ok rest c

/-- Models nom multi::many0 with explicit recursion fuel: collect results
while the parser succeeds and consumes input; a success that consumes
nothing raises the Many0 infinite-loop guard error; a recoverable error ends
the repetition; a failure propagates.  With fuel above the input length the
fuelOut case is unreachable, because every iteration consumes at least one
character. -/
def many0F {α : Type} (p : ParserM α) : Nat → ParserM (List α)
  | 0, i => NomOut.err ⟨i, ErrKind.fuelOut, none⟩
  | fuel + 1, i =>
    match p i with
    | NomOut.err _ => NomOut.ok i []
    | NomOut.fail e => NomOut.fail e
    | NomOut.ok rem v =>
      if rem = i then NomOut.err ⟨i, ErrKind.many0K, none⟩
      else
        match many0F p fuel rem with
        | NomOut.ok rem2 vs => NomOut.ok rem2 (v :: vs)
        | NomOut.err e => NomOut.err e
        | NomOut.fail e => NomOut.fail e

/-- many0 with the always-sufficient fuel bound. -/
def many0L {α : Type} (p : ParserM α) : ParserM (List α) := fun i =>
  many0F p (i.length + 1) i

/-- Models nom sequence::delimited. -/
def delimitedP {α β γ : Type} (a : ParserM α) (b : ParserM β) (c : ParserM γ) :
    ParserM β := fun i =>
  nbind (a i) fun i _ =>
  nbind (b i) fun i v =>
  nbind (c i) fun i _ =>
  NomOut.ok i v

/-- Models nom sequence::preceded. -/
def precededP {α β : Type} (a : ParserM α) (b : ParserM β) : ParserM β := fun i =>
  nbind (a i) fun i _ => b i

/-- Models nom sequence::terminated. -/
def terminatedP {α β : Type} (a : ParserM α) (b : ParserM β) : ParserM α := fun i =>
  nbind (a i) fun i v =>
  nbind (b i) fun i _ =>
  NomOut.ok i v

/-! ## Attribute maps and the HTML AST -/

/-- Models std HashMap::insert on string keys for the observable behaviour
of the attribute map: replace the value of an existing key, otherwise add
the entry.  Only key lookups are observed by the code under test. -/
def mapInsert : List (List Char × List Char) → List Char → List Char →
    List (List Char × List Char)
  | [], k, v => [(k, v)]
  | (k2, v2) :: rest, k, v =>
    if k2 = k then (k2, v) :: rest else (k2, v2) :: mapInsert rest k v

/-- Models list.into_iter().collect::<HashMap<_, _>>() in html.rs line 42:
insert every parsed (key, value) pair in order. -/
def mapCollect (l : List (List Char × List Char)) : List (List Char × List Char) :=
  l.foldl (fun m kv => mapInsert m kv.1 kv.2) []

/-- Models HashMap value lookup by key. -/
def mapLookup : List (List Char × List Char) → List Char → Option (List Char)
  | [], _ => none
  | (k2, v2) :: rest, k => if k2 = k then some v2 else mapLookup rest k

/-- Reference function for claim C7, following the wording of the spec: the value
of the last occurrence of a key in a pair list. -/
def lastOccurrenceValue : List (List Char × List Char) → List Char → Option (List Char)
  | [], _ => none
  | (k2, v2) :: rest, k =>
    match lastOccurrenceValue rest k with
    | some v => some v
    | none => if k2 = k then some v2 else none

/-- Modelled from the spec: the HTML AST (libs/twig/src/ast.rs is not part
of the visible sources); the constructors and fields are the ones html.rs
builds: a tag node with name, self-closed flag, attribute map and children,
and a plain text node. -/
inductive HtmlNode where
  | tag (name : List Char) (selfClosed : Bool)
      (arguments : List (List Char × List Char)) (children : List HtmlNode)
  | plain (content : List Char)

/-! ## The html.rs parsers -/

/-- The key delimiter set of html_tag_argument (html.rs lines 17-26):
equals sign, space, greater-than, slash, less-than, line feed, carriage
return and tab. -/
def htmlArgKeyDelim (c : Char) : Bool :=
  c = '=' || c = ' ' || c = '>' || c = '/' || c = '<' || c = '\n' || c = '\r' || c = '\t'

/-- Models html_tag_argument (html.rs lines 15-38): optional whitespace, a
maximal nonempty key run up to a delimiter, then either no ="..." part and
an empty value, or a quoted value followed by trailing whitespace. -/
def htmlTagArgument : ParserM (List Char × List Char) := fun input =>
  nbind (multispace0 input) fun input _ =>
  nbind (takeTill1 htmlArgKeyDelim input) fun input key =>
  nbind (optP (tagP ['=', '"']) input) fun input equal =>
  match equal with
  | none => NomOut.ok input (key, [])
  | some _ =>
    nbind (takeTill1 (fun c => c = '"') input) fun input v =>
    nbind (tagP ['"'] input) fun input _ =>
    nbind (multispace0 input) fun input _ =>
    NomOut.ok input (key, v)

/-- Models html_tag_argument_map (html.rs lines 40-44): many0 of
html_tag_argument collected into the attribute map. -/
def htmlTagArgumentMap : ParserM (List (List Char × List Char)) := fun input =>
  nbind (many0L htmlTagArgument input) fun input list =>
  NomOut.ok input (mapCollect list)

/-- The tag name delimiter set of html_open_tag (html.rs lines 50-52). -/
def htmlTagNameDelim (c : Char) : Bool :=
  c = ' ' || c = '>' || c = '/' || c = '<' || c = '\n' || c = '\r' || c = '\t'

/-- The NON_CLOSING_TAGS lookup set of html.rs line 13. -/
def nonClosingTags : List (List Char) :=
  ["!DOCTYPE".toList, "meta".toList, "input".toList, "img".toList,
    "br".toList, "hr".toList]

/-- Models html_open_tag (html.rs lines 47-63): whitespace, the opening
angle bracket, the tag name, the attribute map, then either a plain closing
bracket (not self-closed) or a slash-bracket (self-closed); names in the
NON_CLOSING_TAGS set are forced to self-closed regardless of syntax. -/
def htmlOpenTag : ParserM (List Char × Bool × List (List Char × List Char)) := fun input =>
  nbind (multispace0 input) fun input _ =>
  nbind (tagP ['<'] input) fun input _ =>
  nbind (takeTill1 htmlTagNameDelim input) fun input openName =>
  nbind (htmlTagArgumentMap input) fun input args =>
  nbind (alt2 (valueP false (tagP ['>'])) (valueP true (tagP ['/', '>'])) input)
    fun input closed =>
  NomOut.ok input
    (openName, (if nonClosingTags.contains openName then true else closed), args)

/-- Models html_close_tag (html.rs lines 65-75): optional whitespace around
a closing tag whose name must match the opening tag — the name match is
inside cut, so a mismatching name is a failure. -/
def htmlCloseTag (openName : List Char) : ParserM (List Char) :=
  delimitedP multispace0
    (delimitedP (tagP ['<', '/'])
      (terminatedP (cutP (tagP openName)) (many0L (noneOf ['>'])))
      (tagP ['>']))
    multispace0

/-- Models html_plain_text (html.rs lines 77-85): whitespace-delimited
maximal nonempty run up to a special character (tag opener, expression
opener brace, tab, carriage return, line feed). -/
def htmlPlainText : ParserM HtmlNode := fun input =>
  nbind
    (delimitedP multispace0
      (takeTill1 fun c =>
        c = '<' || c = Char.ofNat 123 || c = '\t' || c = '\r' || c = '\n')
      multispace0 input)
    fun input plain =>
  NomOut.ok input (HtmlNode.plain plain)

/-- Debug rendering of the attribute map used inside the dynamic context
message; mirrors the Rust Debug format of a string map, with the entries in
the deterministic order of the embedded map (the Rust HashMap iteration
order is arbitrary). -/
def argsDebugRepr (args : List (List Char × List Char)) : String :=
  "\x7b" ++
    String.intercalate ", "
      (args.map fun kv => "\"" ++ String.mk kv.1 ++ "\": \"" ++ String.mk kv.2 ++ "\"") ++
    "\x7d"

/-- The dynamically built context message of html_complete_tag (html.rs
lines 98-101): it embeds the offending opening tag name and its argument
map. -/
def missingClosingMsg (openName : List Char) (args : List (List Char × List Char)) :
    String :=
  "Missing closing tag for opening tag \u0027" ++ String.mk openName ++
    "\u0027 with arguments " ++ argsDebugRepr args

mutual

/-- Models html_complete_tag (html.rs lines 87-117), with explicit recursion
fuel for the mutual recursion through document_node: parse the opening tag;
a self-closed tag has no children and needs no closing tag; otherwise parse
children with many0(document_node) and then demand the matching closing tag
under cut and the dynamically built context message. -/
def htmlCompleteTag : Nat → ParserM HtmlNode
  | 0 => fun i => NomOut.err ⟨i, ErrKind.fuelOut, none⟩
  | fuel + 1 => fun input =>
    nbind (contextP "open tag expected" htmlOpenTag input) fun remaining otriple =>
    match otriple with
    | (openName, selfClosed, args) =>
      if selfClosed then NomOut.ok remaining (HtmlNode.tag openName selfClosed args [])
      else
        nbind (many0F (documentNode fuel) (remaining.length + 1) remaining)
          fun rem2 children =>
        nbind
          (precededP multispace0
            (dynamicContext (missingClosingMsg openName args)
              (cutP (htmlCloseTag openName))) rem2)
          fun rem3 _ =>
        NomOut.ok rem3 (HtmlNode.tag openName selfClosed args children)
termination_by structural fuel => fuel

/-- Modelled from the spec: document_node (libs/twig/src/parser/general.rs
is not part of the visible sources; the spec treats the grammar as a
pluggable alternation of node parsers).  Restricted to the visible HTML
producers: a complete tag or plain text. -/
def documentNode : Nat → ParserM HtmlNode
  | 0 => fun i => NomOut.err ⟨i, ErrKind.fuelOut, none⟩
  | fuel + 1 => fun input => alt2 (htmlCompleteTag fuel) htmlPlainText input
termination_by structural fuel => fuel

end

/-! ## Error conversion and claim C6 -/

/-- Models TwigParseError (error.rs lines 12-17). -/
inductive TwigParseError where
  | ParsingError (info : PEInfo)
  | ParsingFailure (info : PEInfo)
  | MissingClosing
deriving DecidableEq

/-- Models the From impl for nom::Err (error.rs lines 85-93): a recoverable
nom Error becomes TwigParseError::ParsingError and a nom Failure becomes
TwigParseError::ParsingFailure; a successful parse converts to nothing. -/
def twigErrorOfNom {α : Type} : NomOut α → Option TwigParseError
  | NomOut.ok _ _ => none
  | NomOut.err e => some (TwigParseError.ParsingError e)
  | NomOut.fail e => some (TwigParseError.ParsingFailure e)

/-- Claim C6: whenever html_complete_tag parses an opening tag that is not
self-closing, parses the children, and then cannot parse the matching
closing tag (recoverably or not), it returns a non-backtrackable Failure —
converted to TwigParseError::ParsingFailure, never the recoverable
ParsingError — whose dynamically built context message embeds the offending
opening tag name and its argument map. -/
theorem unclosedTag_failure_C6 (fuel : Nat) (input rem rem2 : List Char)
    (openName : List Char) (args : List (List Char × List Char))
    (children : List HtmlNode) (e0 : PEInfo)
    (hopen : htmlOpenTag input = NomOut.ok rem (openName, false, args))
    (hkids : many0F (documentNode fuel) (rem.length + 1) rem = NomOut.ok rem2 children)
    (hclose : precededP multispace0 (htmlCloseTag openName) rem2 = NomOut.err e0 ∨
        precededP multispace0 (htmlCloseTag openName) rem2 = NomOut.fail e0) :
    htmlCompleteTag (fuel + 1) input
      = NomOut.fail ⟨e0.input, e0.kind, some (missingClosingMsg openName args)⟩ ∧
    twigErrorOfNom (htmlCompleteTag (fuel + 1) input)
      = some (TwigParseError.ParsingFailure
          ⟨e0.input, e0.kind, some (missingClosingMsg openName args)⟩) ∧
    (∃ pre post, missingClosingMsg openName args = pre ++ String.mk openName ++ post) ∧
    (∃ pre2, missingClosingMsg openName args = pre2 ++ argsDebugRepr args) := by
  have h1 : contextP "open tag expected" htmlOpenTag input
      = NomOut.ok rem (openName, false, args) := by
    unfold contextP
    rw [hopen]
  have h2 : precededP multispace0
      (dynamicContext (missingClosingMsg openName args) (cutP (htmlCloseTag openName))) rem2
      = NomOut.fail ⟨e0.input, e0.kind, some (missingClosingMsg openName args)⟩ := by
    rcases hclose with hc | hc
    · have hc2 : htmlCloseTag openName (rem2.dropWhile isMultispace) = NomOut.err e0 := by
        simpa [precededP, multispace0, nbind] using hc
      simp [precededP, multispace0, nbind, dynamicContext, cutP, hc2]
    · have hc2 : htmlCloseTag openName (rem2.dropWhile isMultispace) = NomOut.fail e0 := by
        simpa [precededP, multispace0, nbind] using hc
      simp [precededP, multispace0, nbind, dynamicContext, cutP, hc2]
  have hmain : htmlCompleteTag (fuel + 1) input
      = NomOut.fail ⟨e0.input, e0.kind, some (missingClosingMsg openName args)⟩ := by
    simp only [htmlCompleteTag]
    rw [h1]
    simp only [nbind]
    rw [if_neg (by simp : ¬ false = true)]
    rw [hkids]
    simp only [nbind]
    rw [h2]
  refine ⟨hmain, by rw [hmain]; rfl, ?_, ?_⟩
  · exact ⟨"Missing closing tag for opening tag '",
      "' with arguments " ++ argsDebugRepr args,
      by simp [missingClosingMsg, String.append_assoc]⟩
  · exact ⟨"Missing closing tag for opening tag '" ++ String.mk openName ++
      "' with arguments ",
      by simp [missingClosingMsg, String.append_assoc]⟩

/-- Witness for claim C6 at the spec example input: an anchor opening tag
with one attribute and no matching closing tag. -/
theorem unclosedTag_failure_C6_witness :
    htmlOpenTag "<a href=\"#\">".toList
      = NomOut.ok [] ("a".toList, false, [("href".toList, "#".toList)]) ∧
    htmlCompleteTag 30 "<a href=\"#\">".toList
      = NomOut.fail ⟨[], ErrKind.tagK,
          some (missingClosingMsg "a".toList [("href".toList, "#".toList)])⟩ :=
  ⟨rfl,
   (unclosedTag_failure_C6 29 "<a href=\"#\">".toList [] [] "a".toList
      [("href".toList, "#".toList)] [] ⟨[], ErrKind.tagK, none⟩
      rfl rfl (Or.inl rfl)).1⟩

/-! ## Attribute parsing: claim C7 -/

theorem mapLookup_mapInsert (m : List (List Char × List Char))
    (k v k2 : List Char) :
    mapLookup (mapInsert m k v) k2 = if k = k2 then some v else mapLookup m k2 := by
  induction m with
  | nil =>
    simp [mapInsert, mapLookup]
  | cons p rest ih =>
    rcases p with ⟨a, b⟩
    by_cases hak : a = k
    · subst hak
      simp only [mapInsert, if_pos rfl, mapLookup]
      by_cases hk2 : a = k2
      · subst hk2
        simp [mapLookup]
      · simp [mapLookup, hk2]
    · simp only [mapInsert, if_neg hak, mapLookup]
      by_cases hk2 : a = k2
      · subst hk2
        simp [mapLookup, Ne.symm hak]
      · simp [mapLookup, hk2, ih]

theorem mapLookup_foldl_insert :
    ∀ (l : List (List Char × List Char)) (m : List (List Char × List Char))
      (k : List Char),
      mapLookup (l.foldl (fun m kv => mapInsert m kv.1 kv.2) m) k
        = (match lastOccurrenceValue l k with
            | some v => some v
            | none => mapLookup m k) := by
  intro l
  induction l with
  | nil => intro m k; rfl
  | cons p rest ih =>
    intro m k
    rcases p with ⟨a, b⟩
    rw [List.foldl_cons, ih]
    simp only [lastOccurrenceValue]
    cases lastOccurrenceValue rest k with
    | some v => rfl
    | none =>
      rw [mapLookup_mapInsert]
      by_cases hak : a = k
      · simp [hak]
      · simp [hak]

/-- Claim C7: html_tag_argument scans the attribute key as a maximal
nonempty run of characters terminated by the fixed delimiter set (equals
sign, space, tab, greater-than, slash, less-than, line feed, carriage
return); a bare key not followed by an equals-quote parses successfully with
the empty value; and collecting parsed pairs into the attribute map makes
the last occurrence of a duplicate key win, without any error. -/
theorem attrKey_lastWins_C7 :
    (∀ (input : List Char),
        (input.dropWhile isMultispace).takeWhile (fun c => !htmlArgKeyDelim c) ≠ [] →
        ¬ ['=', '"'].isPrefixOf
            ((input.dropWhile isMultispace).drop
              (((input.dropWhile isMultispace).takeWhile
                (fun c => !htmlArgKeyDelim c)).length)) →
        htmlTagArgument input
          = NomOut.ok
              ((input.dropWhile isMultispace).drop
                (((input.dropWhile isMultispace).takeWhile
                  (fun c => !htmlArgKeyDelim c)).length))
              ((input.dropWhile isMultispace).takeWhile (fun c => !htmlArgKeyDelim c),
                [])) ∧
    (∀ (l : List (List Char × List Char)) (k : List Char),
        mapLookup (mapCollect l) k = lastOccurrenceValue l k) ∧
    (∀ (input rem : List Char) (l : List (List Char × List Char)),
        many0L htmlTagArgument input = NomOut.ok rem l →
        htmlTagArgumentMap input = NomOut.ok rem (mapCollect l)) := by
  refine ⟨?_, ?_, ?_⟩
  · intro input hkey hpre
    simp only [htmlTagArgument, multispace0, nbind, takeTill1]
    rw [if_neg (by simpa [List.isEmpty_iff] using hkey)]
    simp only [nbind, optP, tagP]
    rw [if_neg hpre]
  · intro l k
    have := mapLookup_foldl_insert l [] k
    unfold mapCollect
    rw [this]
    cases lastOccurrenceValue l k with
    | some v => rfl
    | none => rfl
  · intro input rem l h
    unfold htmlTagArgumentMap
    rw [h]
    rfl

/-- Witness for claim C7: a bare key stops at the delimiter and yields the
empty value, and a duplicated key resolves to its last value in the map. -/
theorem attrKey_lastWins_C7_witness :
    htmlTagArgument "disabled>rest".toList
      = NomOut.ok ">rest".toList ("disabled".toList, []) ∧
    mapLookup (mapCollect [("k".toList, "1".toList), ("k".toList, "2".toList)])
        "k".toList
      = lastOccurrenceValue [("k".toList, "1".toList), ("k".toList, "2".toList)]
          "k".toList ∧
    mapLookup (mapCollect [("k".toList, "1".toList), ("k".toList, "2".toList)])
        "k".toList = some "2".toList :=
  ⟨attrKey_lastWins_C7.1 "disabled>rest".toList (by decide) (by decide),
   attrKey_lastWins_C7.2.1 [("k".toList, "1".toList), ("k".toList, "2".toList)]
     "k".toList,
   by decide⟩

/-! ## Implicitly self-closing tags: claim C8 -/

/-- Claim C8: any successfully parsed opening tag whose name lies in the
fixed NON_CLOSING_TAGS lookup set is reported self-closed, also when the
syntax ended with a plain closing bracket; a self-closed opening tag makes
html_complete_tag return immediately with no children and no closing-tag
requirement; and the spec example document parses to a div node containing a
self-closed meta node with its charset attribute and an empty non-self-closed
title node, with no parse error. -/
theorem nonClosing_selfClosed_C8 :
    (∀ (input rem name : List Char) (closed : Bool)
        (args : List (List Char × List Char)),
        htmlOpenTag input = NomOut.ok rem (name, closed, args) →
        nonClosingTags.contains name = true → closed = true) ∧
    (∀ (fuel : Nat) (input rem name : List Char)
        (args : List (List Char × List Char)),
        htmlOpenTag input = NomOut.ok rem (name, true, args) →
        htmlCompleteTag (fuel + 1) input = NomOut.ok rem (HtmlNode.tag name true args [])) ∧
    htmlCompleteTag 30 "<div><meta charset=\"UTF-8\"><title></title></div>".toList
      = NomOut.ok []
          (HtmlNode.tag "div".toList false []
            [HtmlNode.tag "meta".toList true [("charset".toList, "UTF-8".toList)] [],
             HtmlNode.tag "title".toList false [] []]) ∧
    mapLookup [("charset".toList, "UTF-8".toList)] "charset".toList
      = some "UTF-8".toList := by
  refine ⟨?_, ?_, ?_, ?_⟩
  · intro input rem name closed args h hmem
    unfold htmlOpenTag at h
    simp only [multispace0, nbind, tagP, takeTill1, alt2, valueP] at h
    repeat split at h
    all_goals cases h
    all_goals first
      | rfl
      | exact absurd hmem (by assumption)
  · intro fuel input rem name args h
    simp only [htmlCompleteTag]
    rw [show contextP "open tag expected" htmlOpenTag input
          = NomOut.ok rem (name, true, args) by unfold contextP; rw [h]]
    rfl
  · rfl
  · rfl

/-- Witness for claim C8: a br tag written with a plain closing bracket is
reported self-closed and parses as a complete tag with no children. -/
theorem nonClosing_selfClosed_C8_witness :
    htmlOpenTag "<br>".toList = NomOut.ok [] ("br".toList, true, []) ∧
    nonClosingTags.contains "br".toList = true ∧
    htmlCompleteTag 5 "<br>".toList
      = NomOut.ok [] (HtmlNode.tag "br".toList true [] []) :=
  ⟨rfl, by decide,
   nonClosing_selfClosed_C8.2.1 4 "<br>".toList [] "br".toList [] rfl⟩

/-! ## Part 3: position reporting and the error printer (libs/twig/src/error.rs)

The recorded slice of a ParsingErrorInformation value is represented by the
byte offset of its start inside the enclosing input; subslice_offset
recovers exactly this offset whenever the slice lies within the input, and
returns None (an unwrap panic) otherwise.  usize subtraction that can wrap
is modelled modulo 2 ^ 64, the release-mode Rust semantics; string slicing
is modelled as checked, since input[a..b] panics out of bounds in every
build mode. -/

/-- One more than the largest usize value. -/
def usizeMod : Nat := 2 ^ 64

/-- Wrapping usize subtraction. -/
def wsub (a b : Nat) : Nat := (a + (usizeMod - b % usizeMod)) % usizeMod

/-- The mutable loop state of get_line_and_column_of_subslice (error.rs
lines 166-170): last_line_start, last_line_end, found, lines,
byte_number. -/
structure LineScanState where
  lls : Nat
  lle : Nat
  found : Bool
  lines : Nat
  byteNumber : Nat
deriving DecidableEq

/-- Models the byte loop of get_line_and_column_of_subslice (error.rs lines
172-188): each step records the byte number; a separator byte (carriage
return or line feed) bumps the line counter and the line end, breaks when
the offset was already found, and otherwise moves the line start; reaching
the offset sets the found flag. -/
def lineScan (offset : Nat) : List Char → Nat → LineScanState → LineScanState
  | [], _, s => s
  | c :: rest, i, s =>
    if c = '\r' ∨ c = '\n' then
      if s.found then ⟨s.lls, i + 1, s.found, s.lines + 1, i⟩
      else lineScan offset rest (i + 1)
        ⟨i + 1, i + 1, decide (i = offset), s.lines + 1, i⟩
    else lineScan offset rest (i + 1)
      ⟨s.lls, s.lle, s.found || decide (i = offset), s.lines, i⟩

/-- Checked model of the Rust string slicing input[a..b]: out-of-bounds
indices panic. -/
def sliceChecked (l : List Char) (a b : Nat) : Option (List Char) :=
  if a ≤ b ∧ b ≤ l.length then some ((l.drop a).take (b - a)) else none

/-- Models get_line_and_column_of_subslice (error.rs lines 164-201) on the
offset of the sub-slice: run the byte loop from the initial state, adjust
the line end (the whole remainder when no terminator ended the last parsed
line, otherwise excluding the terminator), slice the last line out of the
input and report the accumulated line counter and the one-based column.
Returns none exactly when the slicing panics. -/
def getLineAndColumnOfSubslice (input : List Char) (offset : Nat) :
    Option (Nat × Nat × List Char) :=
  let s := lineScan offset input 0 ⟨0, 0, false, 1, 0⟩
  let lle2 := if s.lls = s.lle then s.byteNumber + 1 else wsub s.lle 1
  match sliceChecked input s.lls lle2 with
  | none => none
  | some lastLine => some (s.lines, (wsub offset s.lls + 1) % usizeMod, lastLine)

/-- ParsingErrorInformation with the recorded slice represented by its byte
offset into the enclosing input. -/
structure PEInfoAt where
  offset : Nat
  kind : ErrKind
  context : Option String
deriving DecidableEq

/-- TwigParseError over offset-based error information, for the printer. -/
inductive TwigParseErrorAt where
  | ParsingError (info : PEInfoAt)
  | ParsingFailure (info : PEInfoAt)
  | MissingClosing
deriving DecidableEq

/-- What pretty_print_userfriendly_error writes to the terminal: the line
and column, the text of the offending line, the width of the caret padding
(column minus one, wrapping), and the kind and context that are printed
last. -/
structure PPOutput where
  line : Nat
  column : Nat
  lastLine : List Char
  padCount : Nat
  kind : ErrKind
  contextMsg : Option String
deriving DecidableEq

/-- The shared rendering body of pretty_print_userfriendly_error (error.rs
lines 104-131): unwrap the subslice offset (a panic when the slice is not
within the input), locate the line and column, and emit the report.  A panic
is modelled as an error value naming the panic site. -/
def renderInfo (info : PEInfoAt) (input : List Char) : Except String PPOutput :=
  if info.offset ≤ input.length then
    match getLineAndColumnOfSubslice input info.offset with
    | none => Except.error "slice index out of bounds"
    | some (line, column, lastLine) =>
      Except.ok ⟨line, column, lastLine, wsub column 1, info.kind, info.context⟩
  else Except.error "subslice_offset unwrap on None"

/-- Models pretty_print_userfriendly_error (error.rs lines 97-132): the
MissingClosing variant panics unconditionally with "unprintable error"; the
ParsingError and ParsingFailure variants both extract their information and
render the report. -/
def prettyPrintUserfriendlyError (e : TwigParseErrorAt) (input : List Char) :
    Except String PPOutput :=
  match e with
  | TwigParseErrorAt.MissingClosing => Except.error "unprintable error"
  | TwigParseErrorAt.ParsingError info => renderInfo info input
  | TwigParseErrorAt.ParsingFailure info => renderInfo info input

/-- Invariant of the byte loop: starting from a state whose line bounds are
ordered and no larger than the scan position, the loop keeps the line start
at or before the line end, keeps the line end within one past the last
processed byte, and processes only bytes of the remaining input. -/
theorem lineScan_inv :
    ∀ (l : List Char), l ≠ [] → ∀ (i : Nat) (s : LineScanState) (offset : Nat),
      s.lls ≤ s.lle → s.lle ≤ i →
      (lineScan offset l i s).lls ≤ (lineScan offset l i s).lle ∧
      (lineScan offset l i s).lle ≤ (lineScan offset l i s).byteNumber + 1 ∧
      (lineScan offset l i s).byteNumber + 1 ≤ i + l.length := by
  intro l
  induction l with
  | nil => intro h; exact absurd rfl h
  | cons c rest ih =>
    intro _ i s offset h1 h2
    by_cases hc : (c = '\r' ∨ c = '\n')
    · by_cases hf : s.found = true
      · rw [lineScan, if_pos hc, if_pos hf]
        refine ⟨by simp <;> omega, by simp <;> omega, by simp <;> omega⟩
      · rw [lineScan, if_pos hc, if_neg hf]
        cases rest with
        | nil =>
          rw [lineScan]
          refine ⟨by simp <;> omega, by simp <;> omega, by simp <;> omega⟩
        | cons d rest2 =>
          have := ih (by simp) (i + 1)
            ⟨i + 1, i + 1, decide (i = offset), s.lines + 1, i⟩ offset
            (by simp) (by simp)
          refine ⟨this.1, this.2.1, ?_⟩
          have h4 := this.2.2
          simp only [List.length_cons] at h4 ⊢
          omega
    · rw [lineScan, if_neg hc]
      cases rest with
      | nil =>
        rw [lineScan]
        refine ⟨by simpa using h1, by simp <;> omega, by simp <;> omega⟩
      | cons d rest2 =>
        have := ih (by simp) (i + 1)
          ⟨s.lls, s.lle, s.found || decide (i = offset), s.lines, i⟩ offset
          (by simpa using h1) (by simp <;> omega)
        refine ⟨this.1, this.2.1, ?_⟩
        have h4 := this.2.2
        simp only [List.length_cons] at h4 ⊢
        omega

/-- Wrapping subtraction of one is ordinary subtraction below the wrap. -/
theorem wsub_one (a : Nat) (h1 : 1 ≤ a) (h2 : a < usizeMod) : wsub a 1 = a - 1 := by
  have hW : usizeMod = 18446744073709551616 := by norm_num [usizeMod]
  unfold wsub
  rw [hW] at h2 ⊢
  omega

/-- On a nonempty input the line extraction never panics: the computed slice
bounds are always ordered and within the input. -/
theorem getLineAndColumn_isSome (input : List Char) (offset : Nat)
    (hne : input ≠ []) (hlen : input.length < usizeMod) :
    ∃ line col lastLine,
      getLineAndColumnOfSubslice input offset = some (line, col, lastLine) := by
  obtain ⟨h1, h2, h3⟩ :=
    lineScan_inv input hne 0 ⟨0, 0, false, 1, 0⟩ offset (Nat.le_refl 0) (Nat.le_refl 0)
  simp only [getLineAndColumnOfSubslice]
  by_cases heq : (lineScan offset input 0 ⟨0, 0, false, 1, 0⟩).lls
      = (lineScan offset input 0 ⟨0, 0, false, 1, 0⟩).lle
  · rw [if_pos heq]
    have hcond : (lineScan offset input 0 ⟨0, 0, false, 1, 0⟩).lls
          ≤ (lineScan offset input 0 ⟨0, 0, false, 1, 0⟩).byteNumber + 1 ∧
        (lineScan offset input 0 ⟨0, 0, false, 1, 0⟩).byteNumber + 1 ≤ input.length :=
      ⟨by omega, by omega⟩
    unfold sliceChecked
    rw [if_pos hcond]
    exact ⟨_, _, _, rfl⟩
  · rw [if_neg heq]
    have hlle : 1 ≤ (lineScan offset input 0 ⟨0, 0, false, 1, 0⟩).lle := by omega
    have hw : wsub (lineScan offset input 0 ⟨0, 0, false, 1, 0⟩).lle 1
        = (lineScan offset input 0 ⟨0, 0, false, 1, 0⟩).lle - 1 :=
      wsub_one _ hlle (by omega)
    rw [hw]
    have hcond : (lineScan offset input 0 ⟨0, 0, false, 1, 0⟩).lls
          ≤ (lineScan offset input 0 ⟨0, 0, false, 1, 0⟩).lle - 1 ∧
        (lineScan offset input 0 ⟨0, 0, false, 1, 0⟩).lle - 1 ≤ input.length :=
      ⟨by omega, by omega⟩
    unfold sliceChecked
    rw [if_pos hcond]
    exact ⟨_, _, _, rfl⟩

/-- Claim C9 evaluated at a failing input: for the five-byte text consisting
of a, b, line feed, c, d, the sub-slice starting at byte offset 0 lies on
line 1, but the scanner reports line number 2 — the loop also counts the
separator that terminates the line containing the offset before breaking —
while the column (1) and the returned line text (the characters a, b) are
the expected ones.  The second conjunct shows the last-line case, where no
terminator follows and the reported line number is the correct one. -/
theorem lineColumn_offByOne_C9 :
    getLineAndColumnOfSubslice "ab\ncd".toList 0 = some (2, 1, "ab".toList) ∧
    getLineAndColumnOfSubslice "ab\ncd".toList 3 = some (2, 1, "cd".toList) := by
  constructor
  · decide
  · decide

/-- Counterexample to claim C10 as stated: for the empty input and a
ParsingError whose recorded slice is the empty string at offset 0 — a slice
that lies within the input — the call does not return normally: the
last-line slicing input[0..1] is out of bounds and panics. -/
theorem prettyPrint_emptyInput_panics_C10 :
    prettyPrintUserfriendlyError
        (TwigParseErrorAt.ParsingError ⟨0, ErrKind.tagK, none⟩) []
      = Except.error "slice index out of bounds" := rfl

/-- Claim C10 as amended: pretty_print_userfriendly_error returns normally
for the ParsingError and ParsingFailure variants whenever the recorded slice
lies within a nonempty input (under release-mode wrapping arithmetic for the
caret padding), but panics on the empty input, and for the MissingClosing
variant it unconditionally panics with the unprintable-error message. -/
theorem prettyPrint_totality_C10 (input : List Char) (info : PEInfoAt)
    (hne : input ≠ []) (hoff : info.offset ≤ input.length)
    (hlen : input.length < usizeMod) :
    (∃ out, prettyPrintUserfriendlyError (TwigParseErrorAt.ParsingError info) input
        = Except.ok out) ∧
    (∃ out, prettyPrintUserfriendlyError (TwigParseErrorAt.ParsingFailure info) input
        = Except.ok out) ∧
    (∀ (input2 : List Char),
        prettyPrintUserfriendlyError TwigParseErrorAt.MissingClosing input2
          = Except.error "unprintable error") := by
  obtain ⟨line, col, lastLine, hsome⟩ :=
    getLineAndColumn_isSome input info.offset hne hlen
  refine ⟨⟨⟨line, col, lastLine, wsub col 1, info.kind, info.context⟩, ?_⟩,
    ⟨⟨line, col, lastLine, wsub col 1, info.kind, info.context⟩, ?_⟩,
    fun _ => rfl⟩
  · show renderInfo info input = _
    unfold renderInfo
    rw [if_pos hoff, hsome]
  · show renderInfo info input = _
    unfold renderInfo
    rw [if_pos hoff, hsome]

/-- Witness for the amended claim C10 at a concrete nonempty input. -/
theorem prettyPrint_totality_C10_witness :
    (∃ out, prettyPrintUserfriendlyError
        (TwigParseErrorAt.ParsingError ⟨0, ErrKind.tagK, none⟩) "ab".toList
      = Except.ok out) ∧
    prettyPrintUserfriendlyError TwigParseErrorAt.MissingClosing "ab".toList
      = Except.error "unprintable error" :=
  ⟨(prettyPrint_totality_C10 "ab".toList ⟨0, ErrKind.tagK, none⟩ (by decide)
      (by decide) (by norm_num [usizeMod])).1,
   (prettyPrint_totality_C10 "ab".toList ⟨0, ErrKind.tagK, none⟩ (by decide)
      (by decide) (by norm_num [usizeMod])).2.2 "ab".toList⟩
